/-
Verification of the perfectPitch pitch-analysis core (src/main.ts).

Shallow embedding conventions:
* JavaScript numbers are modelled as exact rationals (`ℚ`); the two
  transcendental helpers the core uses (`Math.log2`, `Math.pow 2 ·`) are
  abstracted as parameters of type `ℚ → ℚ` collected in `PitchMath`, so every
  state machine and batch function remains executable.  The real-valued
  `hzToMidi` / `midiToFrequency` pair is additionally embedded over `ℝ`
  (with `Real.logb` / real exponentiation) for the algebraic round-trip claim.
* `calculateRms(buffer) < minRms` compares `Real.sqrt (meanSquare buffer)`
  against the floor; since both sides are nonnegative this is equivalent to
  `meanSquare buffer < minRms ^ 2`, which is the decidable form used in
  `pipelineTick` (the equivalence is proved in `rms_gate_iff`).  The same
  square-monotonicity convention is used for `standardDeviation` in
  `analyzeVibrato` (`sqrt v ≥ 6 ↔ v ≥ 36`, proved in `stdDev_ge_iff`).
* The mutable module-level state of the live path (`smoothedFrequency`,
  `frequencyWindow`, `candidateMidi`, `candidateFrames`, `stableMidi`,
  `silenceFrames`, `lastStableMetrics`) is made explicit in `StabilityState`
  and `PipelineState`; one invocation of `renderWaveform`'s analysis section
  (lines 1608-1635) is `pipelineTick`, and one invocation of
  `deriveStableMetrics` together with the caller's `lastStableMetrics :=`
  assignment is `stabilityTick`.
-/
import Mathlib

namespace PerfectPitch

/-! ### Tunable and fixed constants (src/main.ts lines 58-94, 1086-1090) -/

def MIN_FREQUENCY : ℚ := 55
def MAX_FREQUENCY : ℚ := 1000
def DEFAULT_MIN_CONFIDENCE : ℚ := 1/4
def DEFAULT_MIN_RMS : ℚ := 8/1000
def DEFAULT_SMOOTHING : ℚ := 18/100
def DEFAULT_STABILITY_HOLD_FRAMES : ℕ := 4
def STABILITY_WINDOW : ℕ := 7
def STABILITY_SILENCE_FRAMES : ℕ := 10
def STABILITY_HANGOVER_FRAMES : ℕ := 6
def MELODY_STEP_SECONDS : ℚ := 1/10
def LANE_GAP_BREAK_SECONDS : ℚ := 1/4

/-- The note-name table of main.ts line 54 (one list literal there, split in
two halves here). -/
def NOTE_NAMES : List String :=
  ["C", "C#", "D", "D#", "E", "F"] ++ ["F#", "G", "G#", "A", "A#", "B"]

/-! ### Data model -/

/-- `PitchResult` (main.ts lines 7-10): output of `autoCorrelate`. -/
structure PitchResult where
  frequency : Option ℚ
  confidence : ℚ
deriving Repr, DecidableEq

/-- `PitchMetrics` (main.ts lines 14-20): the stable-note record emitted by
`deriveStableMetrics`. -/
structure PitchMetrics where
  frequency : ℚ
  confidence : ℚ
  midi : ℤ
  note : String
  centsFromTarget : ℚ
deriving Repr, DecidableEq

/-- `RecordedFrame` (main.ts lines 22-29). -/
structure RecordedFrame where
  t : ℚ
  frequency : Option ℚ
  midi : Option ℤ
  confidence : ℚ
  cents : Option ℚ
  note : Option String
deriving Repr, DecidableEq

instance : Inhabited RecordedFrame := ⟨⟨0, none, none, 0, none, none⟩⟩

/-- `MelodyEvent` (main.ts lines 35-38). -/
structure MelodyEvent where
  midi : Option ℤ
  duration : ℚ
deriving Repr, DecidableEq

/-- `KaraokePoint` (main.ts lines 40-43). -/
structure KaraokePoint where
  t : ℚ
  midi : ℤ
deriving Repr, DecidableEq

instance : Inhabited KaraokePoint := ⟨⟨0, 0⟩⟩

/-- Result record of `analyzeVibrato` (main.ts line 1157).  The source stores
`depth = Math.sqrt(variance)`; we keep the square `depthSq` so the definition
stays within `ℚ` (`depth ≥ c ↔ depthSq ≥ c ^ 2` for `c ≥ 0`). -/
structure VibratoResult where
  rate : ℚ
  depthSq : ℚ
  hasVibrato : Bool
deriving Repr, DecidableEq

/-- The abstracted transcendental helpers: `log2` stands for `Math.log2` and
`exp2` for `Math.pow 2 ·`.  Every theorem about the `ℚ`-valued machines is
proved for an arbitrary `PitchMath`, i.e. independently of the numerics of
these two functions. -/
structure PitchMath where
  log2 : ℚ → ℚ
  exp2 : ℚ → ℚ

/-- The tunable configuration surface of the live path
(`minConfidence`, `stabilityHoldFrames`, `pitchSmoothing`, `minRms`,
`targetMidi`; main.ts lines 405-448, 1086-1090). -/
structure TuningConfig where
  minConfidence : ℚ
  stabilityHoldFrames : ℕ
  targetMidi : ℤ
  pitchSmoothing : ℚ
  minRms : ℚ
deriving Repr, DecidableEq

/-! ### Pure numeric helpers (main.ts lines 834-853, 1109-1129) -/

/-- `hzToMidi` (main.ts line 834), exact-real version. -/
noncomputable def hzToMidi (frequency : ℝ) : ℝ :=
  69 + 12 * Real.logb 2 (frequency / 440)

/-- `midiToFrequency` (main.ts line 836), exact-real version. -/
noncomputable def midiToFrequency (midi : ℝ) : ℝ :=
  440 * (2 : ℝ) ^ ((midi - 69) / 12)

/-- `hzToMidi` with the abstracted `log2`. -/
def hzToMidiQ (pm : PitchMath) (frequency : ℚ) : ℚ :=
  69 + 12 * pm.log2 (frequency / 440)

/-- `midiToFrequency` with the abstracted `exp2`. -/
def midiToFrequencyQ (pm : PitchMath) (midi : ℚ) : ℚ :=
  440 * pm.exp2 ((midi - 69) / 12)

/-- `midiToNote` (main.ts lines 838-843) for an integer input (the engine only
applies it to the already-rounded `stableMidi`). -/
def midiToNote (midi : ℤ) : String :=
  let name := NOTE_NAMES.getD ((midi % 12 + 12) % 12).toNat ""
  let octave := ⌊(midi : ℚ) / 12⌋ - 1
  name ++ toString octave

/-- `average` (main.ts lines 1109-1112). -/
def average (values : List ℚ) : Option ℚ :=
  if values = [] then none
  else some (values.sum / values.length)

/-- `median` (main.ts lines 1114-1122): sort ascending, take the midpoint
(mean of the two central elements for even length). -/
def median (values : List ℚ) : Option ℚ :=
  if values = [] then none
  else
    let sorted := values.insertionSort (· ≤ ·)
    let mid := sorted.length / 2
    if sorted.length % 2 = 0 then
      some ((sorted.getD (mid - 1) 0 + sorted.getD mid 0) / 2)
    else
      some (sorted.getD mid 0)

/-- The square of `standardDeviation` (main.ts lines 1124-1129): the source
returns `Math.sqrt` of this population variance. -/
def standardDeviationSq (values : List ℚ) : Option ℚ :=
  match average values with
  | none => none
  | some mean => some ((values.map (fun v => (v - mean) ^ 2)).sum / values.length)

/-- The square of `calculateRms` (main.ts lines 709-716): the mean square of
the frame; the source returns `Math.sqrt` of this. -/
def meanSquare (buffer : List ℚ) : ℚ :=
  (buffer.map (fun v => v * v)).sum / buffer.length

/-- Justification for the squared RMS gate used in `pipelineTick`:
for a nonnegative floor, `Real.sqrt (meanSquare b) < floor` is equivalent to
the decidable comparison `meanSquare b < floor ^ 2`. -/
theorem rms_gate_iff (buffer : List ℚ) (floor : ℚ) (hfloor : 0 < floor) :
    Real.sqrt (meanSquare buffer) < (floor : ℝ) ↔
      meanSquare buffer < floor ^ 2 := by
  rw [Real.sqrt_lt' (by exact_mod_cast hfloor)]
  constructor
  · intro h
    exact_mod_cast h
  · intro h
    exact_mod_cast h

/-- Justification for the squared vibrato-depth threshold in `analyzeVibrato`:
for nonnegative `v`, `6 ≤ Real.sqrt v ↔ 36 ≤ v`. -/
theorem stdDev_ge_iff (v : ℚ) (hv : 0 ≤ v) :
    (6 : ℝ) ≤ Real.sqrt (v : ℝ) ↔ (36 : ℚ) ≤ v := by
  have h2 : ((6 : ℝ)) ^ 2 = ((36 : ℚ) : ℝ) := by norm_num
  rw [Real.le_sqrt (by norm_num) (by exact_mod_cast hv), h2, Rat.cast_le]

/-! ### Frequency Estimator — `autoCorrelate` (main.ts lines 1013-1058) -/

/-- The frame mean (`mean` in `autoCorrelate`). -/
def frameMean (buffer : List ℚ) : ℚ := buffer.sum / buffer.length

/-- The total variance of the mean-subtracted frame (`variance` in
`autoCorrelate`; the unnormalized sum of squares). -/
def frameVariance (buffer : List ℚ) : ℚ :=
  (buffer.map (fun v => (v - frameMean buffer) ^ 2)).sum

/-- `minLag = Math.max(1, Math.floor(sampleRate / MAX_FREQUENCY))`. -/
def minLagOf (sampleRate : ℚ) : ℤ := max 1 ⌊sampleRate / MAX_FREQUENCY⌋

/-- `maxLag = Math.min(size - 1, Math.floor(sampleRate / MIN_FREQUENCY))`. -/
def maxLagOf (sampleRate : ℚ) (size : ℕ) : ℤ :=
  min ((size : ℤ) - 1) ⌊sampleRate / MIN_FREQUENCY⌋

/-- The list of lag values scanned by the `for (let lag = minLag; lag <= maxLag; ...)`
loop, in increasing order. -/
def lagRange (sampleRate : ℚ) (size : ℕ) : List ℤ :=
  (List.range (maxLagOf sampleRate size + 1 - minLagOf sampleRate).toNat).map
    (fun i : ℕ => minLagOf sampleRate + (i : ℤ))

/-- The unnormalized autocorrelation at one lag: the inner
`for (let i = 0; i < size - lag; ...)` loop of `autoCorrelate`. -/
def correlationAt (buffer : List ℚ) (mean : ℚ) (lag : ℤ) : ℚ :=
  ((List.range (buffer.length - lag.toNat)).map
    (fun i => (buffer.getD i 0 - mean) * (buffer.getD (i + lag.toNat) 0 - mean))).sum

/-- One iteration of the best-lag scan: `if (correlation > bestCorrelation)
{ bestCorrelation = correlation; bestLag = lag }`. -/
def bestStep (f : ℤ → ℚ) (acc : ℤ × ℚ) (lag : ℤ) : ℤ × ℚ :=
  if acc.2 < f lag then (lag, f lag) else acc

/-- `autoCorrelate` (main.ts lines 1013-1058). -/
def autoCorrelate (buffer : List ℚ) (sampleRate : ℚ) : PitchResult :=
  if frameVariance buffer < 1/10000000 then ⟨none, 0⟩
  else
    let best := (lagRange sampleRate buffer.length).foldl
      (bestStep (correlationAt buffer (frameMean buffer))) (-1, 0)
    let confidence := min (max (best.2 / frameVariance buffer) 0) 1
    if best.1 ≤ 0 then ⟨none, confidence⟩
    else ⟨some (sampleRate / best.1), confidence⟩

/-! ### Stability Engine — `deriveStableMetrics` (main.ts lines 1469-1516) -/

/-- The module-level mutable state consumed by `deriveStableMetrics`
(main.ts lines 434-439 plus `lastStableMetrics`, line 1612/1628). -/
structure StabilityState where
  frequencyWindow : List ℚ
  candidateMidi : Option ℤ
  candidateFrames : ℕ
  stableMidi : Option ℤ
  silenceFrames : ℕ
  lastStableMetrics : Option PitchMetrics
deriving Repr, DecidableEq

/-- The all-cleared initial state (main.ts lines 434-439). -/
def initialStabilityState : StabilityState := ⟨[], none, 0, none, 0, none⟩

/-- `frequencyWindow.push(frequency); if (length > STABILITY_WINDOW) shift()`
(main.ts lines 1484-1487). -/
def pushWindow (window : List ℚ) (frequency : ℚ) : List ℚ :=
  let pushed := window ++ [frequency]
  if STABILITY_WINDOW < pushed.length then pushed.tail else pushed

/-- `deriveStableMetrics` (main.ts lines 1469-1516).  Returns the updated
mutable state together with the returned `PitchMetrics | null`.  The
function reads `lastStableMetrics` but does not write it (its caller
does; see `stabilityTick`). -/
def deriveStableMetrics (pm : PitchMath) (cfg : TuningConfig) (st : StabilityState)
    (frequency : Option ℚ) (confidence : ℚ) : StabilityState × Option PitchMetrics :=
  if frequency = none ∨ confidence < cfg.minConfidence then
    let silenceCount := st.silenceFrames + 1
    let cleared : StabilityState :=
      { st with silenceFrames := silenceCount, frequencyWindow := [],
                candidateMidi := none, candidateFrames := 0 }
    if STABILITY_SILENCE_FRAMES ≤ silenceCount then
      ({ cleared with stableMidi := none }, none)
    else if st.lastStableMetrics ≠ none ∧ silenceCount ≤ STABILITY_HANGOVER_FRAMES then
      (cleared, st.lastStableMetrics)
    else
      (cleared, none)
  else
    let window := pushWindow st.frequencyWindow (frequency.getD 0)
    match median window with
    | none => ({ st with silenceFrames := 0, frequencyWindow := window }, none)
    | some medianFrequency =>
      let candidate := round (hzToMidiQ pm medianFrequency)
      let candidateFrames :=
        if st.candidateMidi = some candidate then st.candidateFrames + 1 else 1
      let stableMidi :=
        if cfg.stabilityHoldFrames ≤ candidateFrames then some candidate else st.stableMidi
      let st' : StabilityState :=
        { st with silenceFrames := 0, frequencyWindow := window,
                  candidateMidi := some candidate, candidateFrames := candidateFrames,
                  stableMidi := stableMidi }
      match stableMidi with
      | none => (st', none)
      | some sm =>
        let stableFrequency :=
          if some sm = some candidate then medianFrequency else midiToFrequencyQ pm sm
        let targetFrequency := midiToFrequencyQ pm cfg.targetMidi
        let centsFromTarget := 1200 * pm.log2 (stableFrequency / targetFrequency)
        (st', some ⟨stableFrequency, confidence, sm, midiToNote sm, centsFromTarget⟩)

/-- One engine invocation as performed by `renderWaveform`: call
`deriveStableMetrics` and store its return value into `lastStableMetrics`
(main.ts lines 1612 and 1627-1628). -/
def stabilityTick (pm : PitchMath) (cfg : TuningConfig) (st : StabilityState)
    (frequency : Option ℚ) (confidence : ℚ) : StabilityState × Option PitchMetrics :=
  let r := deriveStableMetrics pm cfg st frequency confidence
  ({ r.1 with lastStableMetrics := r.2 }, r.2)

/-- Iterated engine invocations over a list of `(frequency, confidence)` inputs. -/
def runStabilityState (pm : PitchMath) (cfg : TuningConfig) :
    StabilityState → List (Option ℚ × ℚ) → StabilityState
  | st, [] => st
  | st, input :: rest =>
      runStabilityState pm cfg (stabilityTick pm cfg st input.1 input.2).1 rest

/-- The window-median candidate computed by a valid tick at state `st` with
accepted frequency `f`: `Math.round(hzToMidi(median(window after push)))`. -/
def tickCandidate (pm : PitchMath) (st : StabilityState) (f : ℚ) : ℤ :=
  round (hzToMidiQ pm ((median (pushWindow st.frequencyWindow f)).getD 0))

/-- The ticks of `inputs` are all valid (confidence at or above the threshold)
and each one's window-median candidate, evaluated in the evolving state, is `a`. -/
def TicksWithCandidate (pm : PitchMath) (cfg : TuningConfig) (a : ℤ) :
    StabilityState → List (ℚ × ℚ) → Prop
  | _, [] => True
  | st, (f, c) :: rest =>
      cfg.minConfidence ≤ c ∧ tickCandidate pm st f = a ∧
        TicksWithCandidate pm cfg a (stabilityTick pm cfg st (some f) c).1 rest

/-- Every input in the list is rejected by the engine: frequency `null` or
confidence below the threshold. -/
def SilentInputs (cfg : TuningConfig) (inputs : List (Option ℚ × ℚ)) : Prop :=
  ∀ i ∈ inputs, i.1 = none ∨ i.2 < cfg.minConfidence

/-! ### Live per-tick pipeline — analysis section of `renderWaveform`
(main.ts lines 1608-1635): Signal Gate → Estimator → Smoother → Stability. -/

/-- The live-path mutable state outside the Stability Engine. -/
structure PipelineState where
  smoothedFrequency : Option ℚ
  stability : StabilityState
deriving Repr, DecidableEq

/-- One tick of `renderWaveform`'s analysis section.  Returns the new state,
the `PitchMetrics | null` handed to `updatePitchDisplay` / `recordFrame`,
and the confidence handed to them.  The RMS gate compares the mean square
against `minRms ^ 2` (see `rms_gate_iff`); on a gated frame the source sets
`smoothedFrequency = null`, feeds `(null, 0)` to the engine and displays
`(null, 0)` (main.ts lines 1609-1616). -/
def pipelineTick (pm : PitchMath) (cfg : TuningConfig) (st : PipelineState)
    (buffer : List ℚ) (sampleRate : ℚ) : PipelineState × Option PitchMetrics × ℚ :=
  if meanSquare buffer < cfg.minRms ^ 2 then
    let r := stabilityTick pm cfg st.stability none 0
    (⟨none, r.1⟩, none, 0)
  else
    let estimate := autoCorrelate buffer sampleRate
    let smoothed :=
      match estimate.frequency with
      | none => st.smoothedFrequency
      | some f =>
          if cfg.minConfidence ≤ estimate.confidence then
            some (match st.smoothedFrequency with
                  | none => f
                  | some s => s + cfg.pitchSmoothing * (f - s))
          else st.smoothedFrequency
    let r := stabilityTick pm cfg st.stability smoothed estimate.confidence
    (⟨smoothed, r.1⟩, r.2, estimate.confidence)

/-! ### Melody Quantizer — `buildMelodySequence` (main.ts lines 1160-1219) -/

/-- Sort frames chronologically: `[...frames].sort((a, b) => a.t - b.t)`
(a stable sort by `t`). -/
def sortFrames (frames : List RecordedFrame) : List RecordedFrame :=
  frames.insertionSort (fun a b => a.t ≤ b.t)

/-- `counts.set(midi, (counts.get(midi) ?? 0) + 1)` over an insertion-ordered
association list (JavaScript `Map` preserves insertion order). -/
def bumpCount : List (ℤ × ℕ) → ℤ → List (ℤ × ℕ)
  | [], m => [(m, 1)]
  | (k, c) :: rest, m =>
      if k = m then (k, c + 1) :: rest else (k, c) :: bumpCount rest m

/-- The majority-vote / fallback midi of one bucket (main.ts lines 1178-1203):
filter to confident frames with a known pitch; if any carry a `midi`, take the
first-encountered maximum-count midi (`bestCount` starts at `-1`, strict `>`);
otherwise round the converted mean frequency.  `toMidi` abstracts
`Math.round(hzToMidi(·))`. -/
def bucketMidi (toMidi : ℚ → ℤ) (minConfidence : ℚ) (bucket : List RecordedFrame) :
    Option ℤ :=
  let valid := bucket.filter
    (fun frame => minConfidence ≤ frame.confidence ∧
      (frame.midi ≠ none ∨ frame.frequency ≠ none))
  if valid = [] then none
  else
    let counts := valid.foldl
      (fun cs frame => match frame.midi with | none => cs | some m => bumpCount cs m) []
    if counts = [] then
      let avgFrequency := (valid.map (fun frame => frame.frequency.getD 0)).sum / valid.length
      some (toMidi avgFrequency)
    else
      some ((counts.foldl
        (fun best kc => if best.2 < (kc.2 : ℤ) then (kc.1, (kc.2 : ℤ)) else best)
        (0, -1)).1)

/-- The bucket walk of `buildMelodySequence` (main.ts lines 1169-1206): `n`
remaining iterations of `for (let t = 0; t <= duration; t += stepSeconds)`,
with `remaining` the still-unconsumed suffix of the sorted frames (the source
advances a cursor `index`; on a sorted list that is `takeWhile`/`dropWhile`
on `t < bucketEnd`). -/
def melodyBuckets (toMidi : ℚ → ℤ) (minConfidence stepSeconds : ℚ) :
    ℕ → ℚ → List RecordedFrame → List MelodyEvent
  | 0, _, _ => []
  | n + 1, t, remaining =>
      let bucketEnd := t + stepSeconds
      let bucket := remaining.takeWhile (fun frame => frame.t < bucketEnd)
      let rest := remaining.dropWhile (fun frame => frame.t < bucketEnd)
      ⟨bucketMidi toMidi minConfidence bucket, stepSeconds⟩ ::
        melodyBuckets toMidi minConfidence stepSeconds n bucketEnd rest

/-- One step of the run-length compression (main.ts lines 1208-1216): merge
into the last pushed event when the midi matches, else push a copy. -/
def compressStep (acc : List MelodyEvent) (event : MelodyEvent) : List MelodyEvent :=
  match acc.getLast? with
  | some last =>
      if last.midi = event.midi then
        acc.dropLast ++ [⟨last.midi, last.duration + event.duration⟩]
      else acc ++ [event]
  | none => acc ++ [event]

/-- The run-length compression loop of `buildMelodySequence`. -/
def compressEvents (events : List MelodyEvent) : List MelodyEvent :=
  events.foldl compressStep []

/-- The number of iterations of `for (let t = 0; t <= duration; t += stepSeconds)`
in exact arithmetic (`stepSeconds > 0`; the source never calls this with a
non-positive step — `MELODY_STEP_SECONDS = 0.1` — and would not terminate
on one). -/
def melodyBucketCount (duration stepSeconds : ℚ) : ℕ :=
  if 0 < stepSeconds then (⌊duration / stepSeconds⌋).toNat + 1 else 0

/-- `buildMelodySequence` (main.ts lines 1160-1219). -/
def buildMelodySequence (toMidi : ℚ → ℤ) (minConfidence : ℚ)
    (frames : List RecordedFrame) (stepSeconds : ℚ) : List MelodyEvent :=
  if frames = [] then []
  else
    let sorted := sortFrames frames
    let duration := (sorted.getLastD default).t
    if duration ≤ 0 then []
    else
      compressEvents
        (melodyBuckets toMidi minConfidence stepSeconds
          (melodyBucketCount duration stepSeconds) 0 sorted)

/-! ### Karaoke Segmenter — `buildKaraokePoints` (main.ts lines 1221-1227) and
the path grouping of `renderKaraokeBar` (main.ts lines 1413-1425) -/

/-- `buildKaraokePoints`: keep confident frames with a known midi, project to
`(t, midi)`, sort by `t`. -/
def buildKaraokePoints (minConfidence : ℚ) (frames : List RecordedFrame) :
    List KaraokePoint :=
  if frames = [] then []
  else
    ((frames.filter
        (fun frame => frame.midi ≠ none ∧ minConfidence ≤ frame.confidence)).map
      (fun frame => ⟨frame.t, frame.midi.getD 0⟩)).insertionSort
      (fun a b => a.t ≤ b.t)

/-- The run builder of `renderKaraokeBar`'s path loop: `cur` is the run being
extended (an `L` chain), and a new run (`M` command) starts exactly when
`point.t - lastPoint.t > LANE_GAP_BREAK_SECONDS`. -/
def karaokeRunsGo (gap : ℚ) (lastP : KaraokePoint) (cur : List KaraokePoint) :
    List KaraokePoint → List (List KaraokePoint)
  | [] => [cur]
  | q :: rest =>
      if gap < q.t - lastP.t then cur :: karaokeRunsGo gap q [q] rest
      else karaokeRunsGo gap q (cur ++ [q]) rest

/-- The maximal gap-connected runs of the point list: the polyline segments
(`M` … `L` … groups) drawn by `renderKaraokeBar` (main.ts lines 1413-1425). -/
def karaokeRuns (gap : ℚ) : List KaraokePoint → List (List KaraokePoint)
  | [] => []
  | p :: rest => karaokeRunsGo gap p [p] rest

/-! ### Vibrato Analyzer — `analyzeVibrato` (main.ts lines 1131-1158) -/

/-- The dead-zone zero-crossing counter of `analyzeVibrato` (lines 1137-1148):
values within ±2 cents of the mean are skipped; a crossing is a sign flip
between successive retained values. -/
def countCrossings (centsSeries : List ℚ) (mean : ℚ) : ℕ :=
  (centsSeries.foldl
    (fun acc value =>
      let centered := value - mean
      if |centered| < 2 then acc
      else
        let sign : ℤ := if 0 < centered then 1 else -1
        let crossings := if acc.2 ≠ 0 ∧ sign ≠ acc.2 then acc.1 + 1 else acc.1
        (crossings, sign))
    ((0 : ℕ), (0 : ℤ))).1

/-- `analyzeVibrato` (main.ts lines 1131-1158).  `depthSq` is the square of the
source's `depth` (see `VibratoResult`), and the `depth >= 6` conjunct of
`hasVibrato` is therefore `36 ≤ depthSq` (see `stdDev_ge_iff`). -/
def analyzeVibrato (frames : List RecordedFrame) : Option VibratoResult :=
  if frames.length < 10 then none
  else
    let centsSeries := frames.filterMap (fun frame => frame.cents)
    if centsSeries.length < 10 then none
    else
      let mean := (average centsSeries).getD 0
      let crossings := countCrossings centsSeries mean
      let duration := (frames.getLastD default).t - (frames.headD default).t
      if duration ≤ 0 then none
      else
        let rate := (crossings : ℚ) / (2 * duration)
        let depthSq := (standardDeviationSq centsSeries).getD 0
        some ⟨rate, depthSq,
          decide (3 ≤ rate ∧ rate ≤ 8 ∧ 36 ≤ depthSq ∧ 4 ≤ crossings)⟩

/-! ### Shared concrete fixtures used to instantiate theorems -/

/-- A concrete `PitchMath` instance (the `ℚ`-machine theorems hold for every
instance; witnesses need one to evaluate on). -/
def idPitchMath : PitchMath := ⟨id, id⟩

/-- The default tuning of the source (main.ts lines 60-63, 445-448):
`minConfidence = 0.25`, `stabilityHoldFrames = 4`, `targetMidi = 60`,
`pitchSmoothing = 0.18`, `minRms = 0.008`. -/
def defaultTuning : TuningConfig :=
  ⟨DEFAULT_MIN_CONFIDENCE, DEFAULT_STABILITY_HOLD_FRAMES, 60,
   DEFAULT_SMOOTHING, DEFAULT_MIN_RMS⟩

/-! ### C10 — midi/frequency round trip -/

/-- C10: over exact real arithmetic, `hzToMidi` inverts `midiToFrequency`
(`hzToMidi (midiToFrequency m) = m` for every MIDI number `m`, integer or
not), and `midiToFrequency 69 = 440` Hz. -/
theorem hzToMidi_midiToFrequency_roundtrip :
    (∀ m : ℝ, hzToMidi (midiToFrequency m) = m) ∧ midiToFrequency 69 = 440 := by
  constructor
  · intro m
    unfold hzToMidi midiToFrequency
    rw [mul_comm (440 : ℝ), mul_div_assoc, div_self (by norm_num : (440 : ℝ) ≠ 0),
      mul_one, Real.logb_rpow (by norm_num) (by norm_num)]
    ring
  · unfold midiToFrequency
    have h : ((69 : ℝ) - 69) / 12 = 0 := by norm_num
    rw [h, Real.rpow_zero, mul_one]

/-! ### C6 — silent frames -/

/-- C6: a frame whose mean square is under the RMS floor is gated: the
pipeline hands `(null, 0)` to the display/recorder.  A frame whose variance
is below the `1e-7` epsilon makes `autoCorrelate` return
`(frequency = null, confidence = 0)`.  In particular both hold for every
all-zero frame (for any positive RMS floor). -/
theorem silent_frame_yields_none_zero (pm : PitchMath) (cfg : TuningConfig)
    (st : PipelineState) (sampleRate : ℚ) :
    (∀ buffer, meanSquare buffer < cfg.minRms ^ 2 →
        (pipelineTick pm cfg st buffer sampleRate).2 = (none, 0)) ∧
    (∀ buffer, frameVariance buffer < 1/10000000 →
        autoCorrelate buffer sampleRate = ⟨none, 0⟩) ∧
    (∀ n : ℕ, 0 < cfg.minRms →
        (pipelineTick pm cfg st (List.replicate (n+1) 0) sampleRate).2 = (none, 0) ∧
        autoCorrelate (List.replicate (n+1) 0) sampleRate = ⟨none, 0⟩) := by
  refine ⟨fun buffer h => by unfold pipelineTick; rw [if_pos h],
          fun buffer h => by unfold autoCorrelate; rw [if_pos h], fun n hrms => ?_⟩
  have hms : meanSquare (List.replicate (n+1) (0:ℚ)) = 0 := by
    simp [meanSquare]
  have hfv : frameVariance (List.replicate (n+1) (0:ℚ)) = 0 := by
    simp [frameVariance, frameMean]
  constructor
  · have hlt : meanSquare (List.replicate (n+1) (0:ℚ)) < cfg.minRms ^ 2 := by
      rw [hms]; positivity
    unfold pipelineTick
    rw [if_pos hlt]
  · have hlt : frameVariance (List.replicate (n+1) (0:ℚ)) < 1/10000000 := by
      rw [hfv]; norm_num
    unfold autoCorrelate
    rw [if_pos hlt]

/-- Witness for C6 at concrete inputs. -/
theorem silent_frame_yields_none_zero_witness :
    (pipelineTick idPitchMath defaultTuning ⟨none, initialStabilityState⟩
        [1/1000] 44100).2 = (none, 0) ∧
    autoCorrelate [5, 5] 44100 = ⟨none, 0⟩ ∧
    (pipelineTick idPitchMath defaultTuning ⟨none, initialStabilityState⟩
        (List.replicate 4 0) 44100).2 = (none, 0) := by
  have h := silent_frame_yields_none_zero idPitchMath defaultTuning
    ⟨none, initialStabilityState⟩ 44100
  exact ⟨h.1 [1/1000] (by norm_num [meanSquare, defaultTuning, DEFAULT_MIN_RMS]),
    h.2.1 [5, 5] (by norm_num [frameVariance, frameMean]),
    (h.2.2 3 (by norm_num [defaultTuning, DEFAULT_MIN_RMS])).1⟩

/-! ### C3 — the smoother on rejected ticks -/

/-- C3 counterexample: the claim "the smoother state is never reset by
rejection" fails on RMS-gated frames.  On an all-zero (gated, hence
rejected) frame, the source (main.ts line 1611) resets
`smoothedFrequency = null`: starting from `smoothedFrequency = some 440`,
one gated tick leaves `none`. -/
theorem smoothed_reset_on_rms_gate_counterexample :
    meanSquare [0, 0, 0, 0] < defaultTuning.minRms ^ 2 ∧
    (⟨some 440, initialStabilityState⟩ : PipelineState).smoothedFrequency = some 440 ∧
    (pipelineTick idPitchMath defaultTuning ⟨some 440, initialStabilityState⟩
        [0, 0, 0, 0] 44100).1.smoothedFrequency = none := by
  have hgate : meanSquare [(0:ℚ), 0, 0, 0] < defaultTuning.minRms ^ 2 := by
    norm_num [meanSquare, defaultTuning, DEFAULT_MIN_RMS]
  refine ⟨hgate, rfl, ?_⟩
  unfold pipelineTick
  rw [if_pos hgate]

/-- C3 amended: when the estimate is rejected for a reason other than the RMS
gate (frequency `null`, or confidence below `minConfidence`, while the frame
passes the RMS floor), `smoothedFrequency` is left unchanged; an RMS-gated
frame however resets it to `null`. -/
theorem smoothed_unchanged_on_nongated_rejection (pm : PitchMath)
    (cfg : TuningConfig) (st : PipelineState) (buffer : List ℚ) (sampleRate : ℚ) :
    (¬ meanSquare buffer < cfg.minRms ^ 2 →
       ((autoCorrelate buffer sampleRate).frequency = none ∨
        (autoCorrelate buffer sampleRate).confidence < cfg.minConfidence) →
       (pipelineTick pm cfg st buffer sampleRate).1.smoothedFrequency
         = st.smoothedFrequency) ∧
    (meanSquare buffer < cfg.minRms ^ 2 →
       (pipelineTick pm cfg st buffer sampleRate).1.smoothedFrequency = none) := by
  constructor
  · intro hgate hrej
    simp only [pipelineTick, if_neg hgate]
    rcases hrej with h | h
    · simp [h]
    · cases hfreq : (autoCorrelate buffer sampleRate).frequency with
      | none => simp [hfreq]
      | some f => simp [hfreq, not_le.mpr h]
  · intro hgate
    simp [pipelineTick, hgate]

/-- Witness for C3's amended theorem at concrete inputs: a non-gated but
rejected frame keeps `smoothedFrequency = some 440`; a gated frame clears it. -/
theorem smoothed_unchanged_on_nongated_rejection_witness :
    (pipelineTick idPitchMath defaultTuning ⟨some 440, initialStabilityState⟩
        [1, -1, 1, -1] 4).1.smoothedFrequency = some 440 ∧
    (pipelineTick idPitchMath defaultTuning ⟨some 440, initialStabilityState⟩
        [0, 0, 0, 0] 44100).1.smoothedFrequency = none := by
  have h := smoothed_unchanged_on_nongated_rejection idPitchMath defaultTuning
    ⟨some 440, initialStabilityState⟩
  have hfreq : (autoCorrelate [1, -1, 1, -1] 4).frequency = none := by
    norm_num [autoCorrelate, frameVariance, frameMean, lagRange, minLagOf, maxLagOf,
      MIN_FREQUENCY, MAX_FREQUENCY]
  exact ⟨(h [1, -1, 1, -1] 4).1
      (by norm_num [meanSquare, defaultTuning, DEFAULT_MIN_RMS]) (Or.inl hfreq),
    (h [0, 0, 0, 0] 44100).2
      (by norm_num [meanSquare, defaultTuning, DEFAULT_MIN_RMS])⟩

/-! ### C2 — hangover and silence reset -/

/-- One rejected tick, in closed form. -/
theorem stabilityTick_silent (pm : PitchMath) (cfg : TuningConfig)
    (st : StabilityState) (freq : Option ℚ) (conf : ℚ)
    (h : freq = none ∨ conf < cfg.minConfidence) :
    stabilityTick pm cfg st freq conf =
      (⟨[], none, 0,
        if STABILITY_SILENCE_FRAMES ≤ st.silenceFrames + 1 then none else st.stableMidi,
        st.silenceFrames + 1,
        if STABILITY_SILENCE_FRAMES ≤ st.silenceFrames + 1 then none
        else if st.lastStableMetrics ≠ none ∧
            st.silenceFrames + 1 ≤ STABILITY_HANGOVER_FRAMES
          then st.lastStableMetrics else none⟩,
       if STABILITY_SILENCE_FRAMES ≤ st.silenceFrames + 1 then none
       else if st.lastStableMetrics ≠ none ∧
           st.silenceFrames + 1 ≤ STABILITY_HANGOVER_FRAMES
         then st.lastStableMetrics else none) := by
  unfold stabilityTick deriveStableMetrics
  rw [if_pos h]
  by_cases h10 : STABILITY_SILENCE_FRAMES ≤ st.silenceFrames + 1
  · simp [h10]
  · by_cases hh : st.lastStableMetrics ≠ none ∧
        st.silenceFrames + 1 ≤ STABILITY_HANGOVER_FRAMES
    · simp [h10, hh]
    · simp [h10, hh]

/-- The state reached after `n ≥ 1` consecutive rejected ticks, starting from a
state with `silenceFrames = 0` and `lastStableMetrics = some m`. -/
def silentRunState (st0 : StabilityState) (m : PitchMetrics) (n : ℕ) : StabilityState :=
  ⟨[], none, 0,
   if STABILITY_SILENCE_FRAMES ≤ n then none else st0.stableMidi,
   n,
   if 1 ≤ n ∧ n ≤ STABILITY_HANGOVER_FRAMES then some m else none⟩

theorem stabilityTick_silentRunState (pm : PitchMath) (cfg : TuningConfig)
    (st0 : StabilityState) (m : PitchMetrics) (n : ℕ) (hn : 1 ≤ n)
    (freq : Option ℚ) (conf : ℚ) (h : freq = none ∨ conf < cfg.minConfidence) :
    (stabilityTick pm cfg (silentRunState st0 m n) freq conf).1
      = silentRunState st0 m (n + 1) := by
  rw [stabilityTick_silent pm cfg _ freq conf h]
  simp only [silentRunState, STABILITY_SILENCE_FRAMES, STABILITY_HANGOVER_FRAMES]
  split_ifs <;> first | rfl | omega | simp_all

/-- Running rejected ticks from `silentRunState n` adds their count to `n`. -/
theorem runStabilityState_silentRunState (pm : PitchMath) (cfg : TuningConfig)
    (st0 : StabilityState) (m : PitchMetrics) :
    ∀ (inputs : List (Option ℚ × ℚ)), SilentInputs cfg inputs →
      ∀ n : ℕ, 1 ≤ n →
      runStabilityState pm cfg (silentRunState st0 m n) inputs
        = silentRunState st0 m (n + inputs.length) := by
  intro inputs
  induction inputs with
  | nil => intro _ n _; simp [runStabilityState]
  | cons i rest ih =>
      intro hsil n hn
      have hhead : i.1 = none ∨ i.2 < cfg.minConfidence := hsil i (by simp)
      have htail : SilentInputs cfg rest := fun j hj => hsil j (by simp [hj])
      show runStabilityState pm cfg
        (stabilityTick pm cfg (silentRunState st0 m n) i.1 i.2).1 rest = _
      rw [stabilityTick_silentRunState pm cfg st0 m n hn i.1 i.2 hhead,
        ih htail (n + 1) (by omega)]
      congr 1
      simp only [List.length_cons]
      omega

/-- A run of rejected ticks from a freshly-locked state lands in
`silentRunState` at the run's length. -/
theorem runStabilityState_silent_from_start (pm : PitchMath) (cfg : TuningConfig)
    (st : StabilityState) (m : PitchMetrics)
    (hsf : st.silenceFrames = 0) (hm : st.lastStableMetrics = some m)
    (inputs : List (Option ℚ × ℚ)) (hsil : SilentInputs cfg inputs)
    (hlen : 1 ≤ inputs.length) :
    runStabilityState pm cfg st inputs = silentRunState st m inputs.length := by
  cases inputs with
  | nil => simp at hlen
  | cons i rest =>
      have hhead : i.1 = none ∨ i.2 < cfg.minConfidence := hsil i (by simp)
      have htail : SilentInputs cfg rest := fun j hj => hsil j (by simp [hj])
      show runStabilityState pm cfg (stabilityTick pm cfg st i.1 i.2).1 rest = _
      have hfirst : (stabilityTick pm cfg st i.1 i.2).1 = silentRunState st m 1 := by
        rw [stabilityTick_silent pm cfg st i.1 i.2 hhead]
        unfold silentRunState STABILITY_SILENCE_FRAMES STABILITY_HANGOVER_FRAMES
        rw [hsf, hm]
        simp
      rw [hfirst,
        runStabilityState_silentRunState pm cfg st m rest htail 1 (by omega)]
      congr 1
      simp [add_comm]

/-- C2: after the engine has locked a note (`lastStableMetrics = some m`,
`silenceFrames = 0`), any `k` consecutive rejected ticks with
`1 ≤ k ≤ STABILITY_HANGOVER_FRAMES = 6` leave the emitted value (the stored
`lastStableMetrics`, which `stabilityTick` always sets to the tick's return
value) equal to the previous `some m`; and a run of exactly
`STABILITY_SILENCE_FRAMES = 10` rejected ticks clears `stableMidi` and
returns `none`. -/
theorem stability_hangover_and_silence_reset (pm : PitchMath) (cfg : TuningConfig)
    (st : StabilityState) (m : PitchMetrics)
    (hsf : st.silenceFrames = 0) (hm : st.lastStableMetrics = some m) :
    (∀ inputs, SilentInputs cfg inputs → 1 ≤ inputs.length →
       inputs.length ≤ STABILITY_HANGOVER_FRAMES →
       (runStabilityState pm cfg st inputs).lastStableMetrics = some m) ∧
    (∀ inputs, SilentInputs cfg inputs →
       inputs.length = STABILITY_SILENCE_FRAMES →
       (runStabilityState pm cfg st inputs).stableMidi = none ∧
       (runStabilityState pm cfg st inputs).lastStableMetrics = none) := by
  constructor
  · intro inputs hsil h1 h6
    rw [runStabilityState_silent_from_start pm cfg st m hsf hm inputs hsil h1]
    unfold silentRunState
    have : 1 ≤ inputs.length ∧ inputs.length ≤ STABILITY_HANGOVER_FRAMES := ⟨h1, h6⟩
    rw [if_pos this]
  · intro inputs hsil hlen
    have h1 : 1 ≤ inputs.length := by
      rw [hlen]; unfold STABILITY_SILENCE_FRAMES; omega
    rw [runStabilityState_silent_from_start pm cfg st m hsf hm inputs hsil h1, hlen]
    unfold silentRunState STABILITY_SILENCE_FRAMES STABILITY_HANGOVER_FRAMES
    norm_num

/-- A concrete locked note used by witnesses. -/
def lockedMetrics : PitchMetrics := ⟨440, 1, 69, "A4", 0⟩

/-- A concrete engine state locked on A4 (midi 69). -/
def lockedState : StabilityState := ⟨[], none, 0, some 69, 0, some lockedMetrics⟩

/-- Witness for C2: three rejected ticks still return the locked note; ten
rejected ticks clear the lock and return `none`. -/
theorem stability_hangover_and_silence_reset_witness :
    (runStabilityState idPitchMath defaultTuning lockedState
        (List.replicate 3 (none, 0))).lastStableMetrics = some lockedMetrics ∧
    (runStabilityState idPitchMath defaultTuning lockedState
        (List.replicate 10 (none, 0))).stableMidi = none ∧
    (runStabilityState idPitchMath defaultTuning lockedState
        (List.replicate 10 (none, 0))).lastStableMetrics = none := by
  have h := stability_hangover_and_silence_reset idPitchMath defaultTuning
    lockedState lockedMetrics rfl rfl
  have hsil3 : SilentInputs defaultTuning (List.replicate 3 ((none : Option ℚ), (0:ℚ))) :=
    fun i hi => Or.inl (by rw [List.eq_of_mem_replicate hi])
  have hsil10 : SilentInputs defaultTuning (List.replicate 10 ((none : Option ℚ), (0:ℚ))) :=
    fun i hi => Or.inl (by rw [List.eq_of_mem_replicate hi])
  have h10 := h.2 _ hsil10 (by simp [STABILITY_SILENCE_FRAMES])
  exact ⟨h.1 _ hsil3 (by simp) (by simp [STABILITY_HANGOVER_FRAMES]), h10.1, h10.2⟩

/-! ### C1 — hysteresis: `stableMidi` moves only after enough agreeing ticks -/

theorem pushWindow_ne_nil (w : List ℚ) (f : ℚ) : pushWindow w f ≠ [] := by
  simp only [pushWindow]
  split
  · rename_i hlen
    have htl : (w ++ [f]).tail.length = w.length := by simp
    intro hnil
    rw [hnil] at htl
    unfold STABILITY_WINDOW at hlen
    simp at hlen htl
    omega
  · simp

theorem median_isSome (l : List ℚ) (h : l ≠ []) : ∃ q, median l = some q := by
  simp only [median, if_neg h]
  split
  · exact ⟨_, rfl⟩
  · exact ⟨_, rfl⟩

/-- A valid tick (`some f`, confidence at/above threshold) in closed form:
the candidate becomes the window-median candidate, the agreement counter
increments exactly on agreement (else resets to 1), and the lock moves to the
candidate exactly when the counter reaches `stabilityHoldFrames`. -/
theorem deriveStableMetrics_valid (pm : PitchMath) (cfg : TuningConfig)
    (st : StabilityState) (f : ℚ) (conf : ℚ) (hc : cfg.minConfidence ≤ conf) :
    (deriveStableMetrics pm cfg st (some f) conf).1.candidateMidi
        = some (tickCandidate pm st f) ∧
    (deriveStableMetrics pm cfg st (some f) conf).1.candidateFrames
        = (if st.candidateMidi = some (tickCandidate pm st f)
           then st.candidateFrames + 1 else 1) ∧
    (deriveStableMetrics pm cfg st (some f) conf).1.stableMidi
        = (if cfg.stabilityHoldFrames ≤
              (if st.candidateMidi = some (tickCandidate pm st f)
               then st.candidateFrames + 1 else 1)
           then some (tickCandidate pm st f) else st.stableMidi) := by
  obtain ⟨mf, hmf⟩ := median_isSome (pushWindow st.frequencyWindow f)
      (pushWindow_ne_nil _ _)
  have hcand : tickCandidate pm st f = round (hzToMidiQ pm mf) := by
    unfold tickCandidate
    rw [hmf]
    rfl
  unfold deriveStableMetrics
  rw [if_neg (by push_neg; exact ⟨Option.some_ne_none f, hc⟩)]
  simp only [Option.getD_some, hmf, hcand]
  split <;> simp

/-- `stabilityTick` and `deriveStableMetrics` update the same engine state
apart from `lastStableMetrics`. -/
theorem stabilityTick_fst_fields (pm : PitchMath) (cfg : TuningConfig)
    (st : StabilityState) (freq : Option ℚ) (conf : ℚ) :
    (stabilityTick pm cfg st freq conf).1.candidateMidi
        = (deriveStableMetrics pm cfg st freq conf).1.candidateMidi ∧
    (stabilityTick pm cfg st freq conf).1.candidateFrames
        = (deriveStableMetrics pm cfg st freq conf).1.candidateFrames ∧
    (stabilityTick pm cfg st freq conf).1.stableMidi
        = (deriveStableMetrics pm cfg st freq conf).1.stableMidi :=
  ⟨rfl, rfl, rfl⟩

/-- Running the ticks of a valid input list. -/
def runValidTicks (pm : PitchMath) (cfg : TuningConfig) (st : StabilityState)
    (inputs : List (ℚ × ℚ)) : StabilityState :=
  runStabilityState pm cfg st (inputs.map (fun i => (some i.1, i.2)))

/-- After at least one tick whose candidate is `A` (and none with another
candidate), the engine's `candidateMidi` is `A`, and its lock can only have
stayed put or moved to `A`. -/
theorem ticksWithCandidate_run (pm : PitchMath) (cfg : TuningConfig) (A : ℤ) :
    ∀ (inputs : List (ℚ × ℚ)) (st : StabilityState),
      TicksWithCandidate pm cfg A st inputs →
      ((1 ≤ inputs.length →
          (runValidTicks pm cfg st inputs).candidateMidi = some A) ∧
       ((runValidTicks pm cfg st inputs).stableMidi = st.stableMidi ∨
        (runValidTicks pm cfg st inputs).stableMidi = some A)) := by
  intro inputs
  induction inputs with
  | nil =>
      intro st _
      exact ⟨fun h => absurd h (by simp), Or.inl rfl⟩
  | cons i rest ih =>
      intro st hticks
      obtain ⟨hc, hcand, hrest⟩ := hticks
      have hvalid := deriveStableMetrics_valid pm cfg st i.1 i.2 hc
      have hstep : runValidTicks pm cfg st (i :: rest)
          = runValidTicks pm cfg (stabilityTick pm cfg st (some i.1) i.2).1 rest := rfl
      have htickcand :
          (stabilityTick pm cfg st (some i.1) i.2).1.candidateMidi = some A := by
        rw [(stabilityTick_fst_fields pm cfg st (some i.1) i.2).1, hvalid.1, hcand]
      have htickstable :
          (stabilityTick pm cfg st (some i.1) i.2).1.stableMidi = st.stableMidi ∨
          (stabilityTick pm cfg st (some i.1) i.2).1.stableMidi = some A := by
        rw [(stabilityTick_fst_fields pm cfg st (some i.1) i.2).2.2, hvalid.2.2, hcand]
        by_cases hhold : cfg.stabilityHoldFrames ≤
            (if st.candidateMidi = some A then st.candidateFrames + 1 else 1)
        · right; rw [if_pos hhold]
        · left; rw [if_neg hhold]
      have ihh := ih (stabilityTick pm cfg st (some i.1) i.2).1 hrest
      constructor
      · intro _
        cases rest with
        | nil => rw [hstep]; exact htickcand
        | cons j js =>
            rw [hstep]
            exact ihh.1 (by simp)
      · rw [hstep]
        rcases ihh.2 with h | h
        · rw [h]; exact htickstable
        · right; exact h

/-- C1: the lock only moves to a new note after enough consecutive agreeing
candidates.  (1) Whenever a tick sets `stableMidi` to a value it did not hold
before, that tick was a valid one, the committed note is that tick's
window-median candidate, and the agreement counter has reached
`stabilityHoldFrames`.  (2) On a valid tick the agreement counter increments
exactly when the tick's candidate equals `candidateMidi`, and otherwise resets
to 1 — so reaching `holdFrames` takes that many consecutive agreeing ticks.
(3) In particular, from any state, `holdFrames - 1` ticks whose candidate is
`A` followed by one tick whose candidate is `B ≠ A` never set `stableMidi`
to `B` (for the tuning range `holdFrames ≥ 2`). -/
theorem stableMidi_changes_require_holdFrames (pm : PitchMath) (cfg : TuningConfig) :
    (∀ (st : StabilityState) (freq : Option ℚ) (conf : ℚ) (B : ℤ),
        (deriveStableMetrics pm cfg st freq conf).1.stableMidi = some B →
        st.stableMidi ≠ some B →
        ∃ f, freq = some f ∧ cfg.minConfidence ≤ conf ∧ tickCandidate pm st f = B ∧
          cfg.stabilityHoldFrames ≤
            (deriveStableMetrics pm cfg st freq conf).1.candidateFrames) ∧
    (∀ (st : StabilityState) (f conf : ℚ), cfg.minConfidence ≤ conf →
        (deriveStableMetrics pm cfg st (some f) conf).1.candidateFrames
          = if st.candidateMidi = some (tickCandidate pm st f)
            then st.candidateFrames + 1 else 1) ∧
    (∀ (st0 : StabilityState) (inputs : List (ℚ × ℚ)) (A B : ℤ) (fB cB : ℚ),
        2 ≤ cfg.stabilityHoldFrames →
        inputs.length = cfg.stabilityHoldFrames - 1 →
        TicksWithCandidate pm cfg A st0 inputs →
        cfg.minConfidence ≤ cB →
        tickCandidate pm (runValidTicks pm cfg st0 inputs) fB = B →
        B ≠ A →
        st0.stableMidi ≠ some B →
        (stabilityTick pm cfg (runValidTicks pm cfg st0 inputs)
            (some fB) cB).1.stableMidi ≠ some B) := by
  refine ⟨?_, ?_, ?_⟩
  · intro st freq conf B hset hold
    by_cases hrej : freq = none ∨ conf < cfg.minConfidence
    · exfalso
      have hsil := congrArg (fun p => p.1.stableMidi)
        (stabilityTick_silent pm cfg st freq conf hrej)
      simp only at hsil
      have : (deriveStableMetrics pm cfg st freq conf).1.stableMidi
          = if STABILITY_SILENCE_FRAMES ≤ st.silenceFrames + 1 then none
            else st.stableMidi := hsil
      rw [hset] at this
      by_cases h10 : STABILITY_SILENCE_FRAMES ≤ st.silenceFrames + 1
      · rw [if_pos h10] at this; exact Option.some_ne_none B this
      · rw [if_neg h10] at this; exact hold this.symm
    · push_neg at hrej
      obtain ⟨hfreq, hconf⟩ := hrej
      obtain ⟨f, rfl⟩ := Option.ne_none_iff_exists'.mp hfreq
      have hvalid := deriveStableMetrics_valid pm cfg st f conf hconf
      rw [hvalid.2.2] at hset
      by_cases hhold : cfg.stabilityHoldFrames ≤
          (if st.candidateMidi = some (tickCandidate pm st f)
           then st.candidateFrames + 1 else 1)
      · rw [if_pos hhold] at hset
        refine ⟨f, rfl, hconf, Option.some_injective _ hset, ?_⟩
        rw [hvalid.2.1]
        exact hhold
      · rw [if_neg hhold] at hset
        exact absurd hset hold
  · intro st f conf hc
    exact (deriveStableMetrics_valid pm cfg st f conf hc).2.1
  · intro st0 inputs A B fB cB hhold2 hlen hticks hcB hcandB hBA hst0
    have hlen1 : 1 ≤ inputs.length := by omega
    have hrun := ticksWithCandidate_run pm cfg A inputs st0 hticks
    have hcand1 : (runValidTicks pm cfg st0 inputs).candidateMidi = some A :=
      hrun.1 hlen1
    have hvalid := deriveStableMetrics_valid pm cfg
      (runValidTicks pm cfg st0 inputs) fB cB hcB
    rw [(stabilityTick_fst_fields pm cfg _ (some fB) cB).2.2, hvalid.2.2]
    have hne : (runValidTicks pm cfg st0 inputs).candidateMidi
        ≠ some (tickCandidate pm (runValidTicks pm cfg st0 inputs) fB) := by
      rw [hcand1, hcandB]
      intro hcontra
      exact hBA (Option.some_injective _ hcontra).symm
    rw [if_neg hne]
    have hnohold : ¬ cfg.stabilityHoldFrames ≤ 1 := by omega
    rw [if_neg hnohold]
    rcases hrun.2 with h | h
    · rw [h]; exact hst0
    · rw [h]
      intro hcontra
      exact hBA (Option.some_injective _ hcontra).symm

/-- The fastest-tracking tuning the sliders can produce
(`stabilityHoldFrames = 2`; main.ts line 1090). -/
def fastTuning : TuningConfig := ⟨1/4, 2, 60, 18/100, 1/125⟩

/-- Witness for C1 at concrete inputs: a committing tick (candidate 69 agreed
for `holdFrames = 2` ticks), the counter increment, and the A/B scenario —
one tick of candidate 69 then one of candidate 81 leaves the lock off 81. -/
theorem stableMidi_changes_require_holdFrames_witness :
    (∃ f, (some (0:ℚ)) = some f ∧ fastTuning.minConfidence ≤ (1:ℚ) ∧
        tickCandidate idPitchMath ⟨[0], some 69, 1, none, 0, none⟩ f = 69 ∧
        fastTuning.stabilityHoldFrames ≤
          (deriveStableMetrics idPitchMath fastTuning ⟨[0], some 69, 1, none, 0, none⟩
            (some 0) 1).1.candidateFrames) ∧
    (deriveStableMetrics idPitchMath fastTuning ⟨[0], some 69, 1, none, 0, none⟩
        (some 0) 1).1.candidateFrames = 2 ∧
    (stabilityTick idPitchMath fastTuning
        (runValidTicks idPitchMath fastTuning lockedState [(0, 1)])
        (some 880) 1).1.stableMidi ≠ some 81 := by
  have h := stableMidi_changes_require_holdFrames idPitchMath fastTuning
  have hcand2 : tickCandidate idPitchMath ⟨[0], some 69, 1, none, 0, none⟩ (0:ℚ) = 69 := by
    norm_num [tickCandidate, pushWindow, STABILITY_WINDOW, median, List.insertionSort,
      List.orderedInsert, hzToMidiQ, idPitchMath, round_eq, List.cons_ne_nil]
  have hcandL : tickCandidate idPitchMath lockedState (0:ℚ) = 69 := by
    norm_num [tickCandidate, pushWindow, STABILITY_WINDOW, median, List.insertionSort,
      List.orderedInsert, hzToMidiQ, idPitchMath, round_eq, lockedState, List.cons_ne_nil]
  have hwin : (runValidTicks idPitchMath fastTuning lockedState
      [(0, 1)]).frequencyWindow = [0] := by
    show (stabilityTick idPitchMath fastTuning lockedState
      (some 0) 1).1.frequencyWindow = [0]
    norm_num [stabilityTick, deriveStableMetrics, lockedState, pushWindow,
      STABILITY_WINDOW, median, List.insertionSort, List.orderedInsert, hzToMidiQ,
      midiToFrequencyQ, idPitchMath, round_eq, fastTuning, Option.some_ne_none,
      List.cons_ne_nil]
  have hcandB : tickCandidate idPitchMath
      (runValidTicks idPitchMath fastTuning lockedState [(0, 1)]) 880 = 81 := by
    unfold tickCandidate
    rw [hwin]
    norm_num [pushWindow, STABILITY_WINDOW, median, List.insertionSort,
      List.orderedInsert, hzToMidiQ, idPitchMath, round_eq, List.cons_ne_nil]
  have hframes : (deriveStableMetrics idPitchMath fastTuning
      ⟨[0], some 69, 1, none, 0, none⟩ (some 0) 1).1.candidateFrames = 2 := by
    rw [h.2.1 ⟨[0], some 69, 1, none, 0, none⟩ 0 1 (by norm_num [fastTuning]), hcand2]
    simp
  have hset : (deriveStableMetrics idPitchMath fastTuning
      ⟨[0], some 69, 1, none, 0, none⟩ (some 0) 1).1.stableMidi = some 69 := by
    have hv := deriveStableMetrics_valid idPitchMath fastTuning
      ⟨[0], some 69, 1, none, 0, none⟩ 0 1 (by norm_num [fastTuning])
    rw [hv.2.2, hcand2]
    norm_num [fastTuning]
  refine ⟨h.1 ⟨[0], some 69, 1, none, 0, none⟩ (some 0) 1 69 hset (by simp),
    hframes, ?_⟩
  exact h.2.2 lockedState [(0, 1)] 69 81 880 1
    (by norm_num [fastTuning]) (by simp [fastTuning])
    ⟨by norm_num [fastTuning], hcandL, trivial⟩
    (by norm_num [fastTuning]) hcandB (by norm_num) (by simp [lockedState])

/-! ### C4 / C7 — Melody Quantizer -/

/-- Every bucket event carries duration `stepSeconds`. -/
theorem melodyBuckets_durations (toMidi : ℚ → ℤ) (mc s : ℚ) :
    ∀ (n : ℕ) (t : ℚ) (rem : List RecordedFrame),
      (melodyBuckets toMidi mc s n t rem).map (fun e => e.duration)
        = List.replicate n s := by
  intro n
  induction n with
  | zero => intro t rem; rfl
  | succ k ih =>
      intro t rem
      simp only [melodyBuckets, List.map_cons, ih, List.replicate_succ]

theorem getLast?_dropLast_sum (d : MelodyEvent → ℚ) :
    ∀ (acc : List MelodyEvent) (last : MelodyEvent), acc.getLast? = some last →
      ((acc.dropLast.map d).sum + d last = (acc.map d).sum) := by
  intro acc
  induction acc with
  | nil => intro last h; simp at h
  | cons a t ih =>
      intro last h
      cases t with
      | nil =>
          simp at h
          subst h
          simp
      | cons b u =>
          have h' : (b :: u).getLast? = some last := by
            rw [← h]; rfl
          have := ih last h'
          simp only [List.dropLast_cons₂, List.map_cons, List.sum_cons]
          rw [add_assoc, this]
          simp

theorem compressStep_sum (acc : List MelodyEvent) (e : MelodyEvent) :
    ((compressStep acc e).map (fun x => x.duration)).sum
      = ((acc.map (fun x => x.duration)).sum) + e.duration := by
  unfold compressStep
  cases hlast : acc.getLast? with
  | none => simp
  | some last =>
      dsimp only
      by_cases hmid : last.midi = e.midi
      · rw [if_pos hmid, List.map_append, List.sum_append,
          ← getLast?_dropLast_sum (fun x => x.duration) acc last hlast]
        simp [add_assoc]
      · rw [if_neg hmid]
        simp

theorem compressEvents_sum_aux :
    ∀ (evs acc : List MelodyEvent),
      ((List.foldl compressStep acc evs).map (fun x => x.duration)).sum
        = (acc.map (fun x => x.duration)).sum
          + (evs.map (fun x => x.duration)).sum := by
  intro evs
  induction evs with
  | nil => intro acc; simp
  | cons e rest ih =>
      intro acc
      simp only [List.foldl_cons, List.map_cons, List.sum_cons]
      rw [ih (compressStep acc e), compressStep_sum]
      ring

/-- The duration sum of `buildMelodySequence` equals the bucket count times
the step (whatever the frame contents). -/
theorem buildMelodySequence_sum (toMidi : ℚ → ℤ) (mc : ℚ)
    (frames : List RecordedFrame) (step : ℚ) (hne : frames ≠ [])
    (hpos : 0 < ((sortFrames frames).getLastD default).t) :
    ((buildMelodySequence toMidi mc frames step).map (fun e => e.duration)).sum
      = (melodyBucketCount ((sortFrames frames).getLastD default).t step : ℕ) * step := by
  unfold buildMelodySequence
  rw [if_neg hne, if_neg (not_le.mpr hpos)]
  unfold compressEvents
  rw [compressEvents_sum_aux _ [], melodyBuckets_durations]
  simp [List.sum_replicate]

/-- C4 counterexample: a single frame at `t = 0.5` quantized at step `0.1`
produces events whose durations sum to `0.6`, not the last timestamp `0.5`
(the discrepancy is a full step, far beyond floating tolerance). -/
theorem melody_duration_sum_counterexample :
    ((buildMelodySequence (fun _ => 0) DEFAULT_MIN_CONFIDENCE
        [⟨1/2, some 440, some 60, 9/10, none, none⟩] MELODY_STEP_SECONDS).map
        (fun e => e.duration)).sum = 3/5 ∧
    (⟨1/2, some 440, some 60, 9/10, none, none⟩ : RecordedFrame).t = 1/2 ∧
    (3/5 : ℚ) ≠ 1/2 := by
  have hsort : sortFrames [(⟨1/2, some 440, some 60, 9/10, none, none⟩ : RecordedFrame)]
      = [⟨1/2, some 440, some 60, 9/10, none, none⟩] := by
    simp [sortFrames, List.insertionSort]
  have h := buildMelodySequence_sum (fun _ => 0) DEFAULT_MIN_CONFIDENCE
    [⟨1/2, some 440, some 60, 9/10, none, none⟩] MELODY_STEP_SECONDS
    (by simp) (by rw [hsort]; norm_num [List.getLastD])
  rw [h, hsort]
  refine ⟨?_, rfl, by norm_num⟩
  have h5 : (Int.toNat 5 : ℕ) = 5 := rfl
  norm_num [melodyBucketCount, MELODY_STEP_SECONDS, List.getLastD, h5]

/-- C4 amended: for a nonempty recording with positive final timestamp `d` and
positive step, the melody-event durations sum to `(⌊d / step⌋ + 1) * step` —
the walk emits one bucket per loop iteration of
`for (t = 0; t <= duration; t += step)` — which overshoots the last
timestamp `d` by up to one step (it is strictly greater than `d` and at most
`d + step`), rather than equalling `d`. -/
theorem melody_duration_sum_quantized (toMidi : ℚ → ℤ) (minConfidence : ℚ)
    (frames : List RecordedFrame) (stepSeconds : ℚ) (d : ℚ)
    (hne : frames ≠ []) (hstep : 0 < stepSeconds)
    (hd : ((sortFrames frames).getLastD default).t = d) (hdpos : 0 < d) :
    ((buildMelodySequence toMidi minConfidence frames stepSeconds).map
        (fun e => e.duration)).sum = (⌊d / stepSeconds⌋ + 1) * stepSeconds ∧
    d < (⌊d / stepSeconds⌋ + 1) * stepSeconds ∧
    (⌊d / stepSeconds⌋ + 1) * stepSeconds ≤ d + stepSeconds := by
  have hsum := buildMelodySequence_sum toMidi minConfidence frames stepSeconds hne
    (by rw [hd]; exact hdpos)
  rw [hd] at hsum
  have hfloor0 : (0:ℤ) ≤ ⌊d / stepSeconds⌋ :=
    Int.floor_nonneg.mpr (div_nonneg hdpos.le hstep.le)
  have hcount : ((melodyBucketCount d stepSeconds : ℕ) : ℚ)
      = (⌊d / stepSeconds⌋ : ℚ) + 1 := by
    unfold melodyBucketCount
    rw [if_pos hstep, Nat.cast_add, Nat.cast_one]
    congr 1
    exact_mod_cast Int.toNat_of_nonneg hfloor0
  refine ⟨by rw [hsum, hcount], ?_, ?_⟩
  · have h1 : d / stepSeconds < ⌊d / stepSeconds⌋ + 1 := Int.lt_floor_add_one _
    calc d = d / stepSeconds * stepSeconds := by field_simp
    _ < ((⌊d / stepSeconds⌋ : ℚ) + 1) * stepSeconds := by
        exact mul_lt_mul_of_pos_right (by exact_mod_cast h1) hstep
  · have h2 : (⌊d / stepSeconds⌋ : ℚ) ≤ d / stepSeconds := Int.floor_le _
    have h3 : (⌊d / stepSeconds⌋ : ℚ) * stepSeconds ≤ d := by
      have hmul := mul_le_mul_of_nonneg_right h2 hstep.le
      rwa [div_mul_cancel₀ d (ne_of_gt hstep)] at hmul
    calc ((⌊d / stepSeconds⌋ : ℚ) + 1) * stepSeconds
        = (⌊d / stepSeconds⌋ : ℚ) * stepSeconds + stepSeconds := by ring
    _ ≤ d + stepSeconds := by linarith

/-- Witness for C4's amended theorem at the counterexample input. -/
theorem melody_duration_sum_quantized_witness :
    ((buildMelodySequence (fun _ => 0) DEFAULT_MIN_CONFIDENCE
        [⟨1/2, some 440, some 60, 9/10, none, none⟩] MELODY_STEP_SECONDS).map
        (fun e => e.duration)).sum
      = (⌊(1/2 : ℚ) / MELODY_STEP_SECONDS⌋ + 1) * MELODY_STEP_SECONDS ∧
    (1/2 : ℚ) < (⌊(1/2 : ℚ) / MELODY_STEP_SECONDS⌋ + 1) * MELODY_STEP_SECONDS ∧
    (⌊(1/2 : ℚ) / MELODY_STEP_SECONDS⌋ + 1) * MELODY_STEP_SECONDS
      ≤ 1/2 + MELODY_STEP_SECONDS := by
  refine melody_duration_sum_quantized (fun _ => 0) DEFAULT_MIN_CONFIDENCE
    [⟨1/2, some 440, some 60, 9/10, none, none⟩] MELODY_STEP_SECONDS (1/2)
    (by simp) (by norm_num [MELODY_STEP_SECONDS]) ?_ (by norm_num)
  simp [sortFrames, List.insertionSort, List.getLastD]

/-- Merging the last event's duration does not change the midi profile. -/
theorem getLast?_dropLast_map_midi :
    ∀ (acc : List MelodyEvent) (last : MelodyEvent), acc.getLast? = some last →
      ∀ x : ℚ,
        (acc.dropLast ++ [({ midi := last.midi, duration := x } : MelodyEvent)]).map
            (fun e => e.midi)
          = acc.map (fun e => e.midi) := by
  intro acc
  induction acc with
  | nil => intro last h; simp at h
  | cons a t ih =>
      intro last h x
      cases t with
      | nil =>
          simp at h
          subst h
          simp
      | cons b u =>
          have h' : (b :: u).getLast? = some last := by rw [← h]; rfl
          simp only [List.dropLast_cons₂, List.cons_append, List.map_cons]
          rw [ih last h' x]
          simp

theorem compressStep_chain (acc : List MelodyEvent) (e : MelodyEvent)
    (h : List.Chain' (fun a b => a.midi ≠ b.midi) acc) :
    List.Chain' (fun a b => a.midi ≠ b.midi) (compressStep acc e) := by
  unfold compressStep
  cases hlast : acc.getLast? with
  | none =>
      have hnil : acc = [] := by
        cases acc with
        | nil => rfl
        | cons a t => simp at hlast
      subst hnil
      simp
  | some last =>
      dsimp only
      by_cases hmid : last.midi = e.midi
      · rw [if_pos hmid]
        refine (List.chain'_map (fun e : MelodyEvent => e.midi)).mp ?_
        rw [getLast?_dropLast_map_midi acc last hlast]
        exact (List.chain'_map (fun e : MelodyEvent => e.midi)).mpr h
      · rw [if_neg hmid, List.chain'_append]
        refine ⟨h, List.chain'_singleton e, ?_⟩
        intro x hx y hy
        rw [hlast] at hx
        simp only [Option.mem_def, Option.some.injEq] at hx
        simp only [List.head?_cons, Option.mem_def, Option.some.injEq] at hy
        subst hx
        subst hy
        exact hmid

theorem compressEvents_chain (events : List MelodyEvent) :
    List.Chain' (fun a b => a.midi ≠ b.midi) (compressEvents events) := by
  unfold compressEvents
  suffices h : ∀ (evs acc : List MelodyEvent),
      List.Chain' (fun a b => a.midi ≠ b.midi) acc →
      List.Chain' (fun a b => a.midi ≠ b.midi) (List.foldl compressStep acc evs) by
    exact h events [] (by simp)
  intro evs
  induction evs with
  | nil => intro acc h; exact h
  | cons e rest ih => intro acc h; exact ih _ (compressStep_chain acc e h)

/-- C7: in the Melody Quantizer's output no two adjacent events share a midi
value — the run-length compression merges equal-midi neighbours (including
`none`s), so adjacent equal values (and adjacent `none`s in particular) are
impossible. -/
theorem melody_adjacent_events_distinct (toMidi : ℚ → ℤ) (minConfidence : ℚ)
    (frames : List RecordedFrame) (stepSeconds : ℚ) :
    List.Chain' (fun a b => a.midi ≠ b.midi)
      (buildMelodySequence toMidi minConfidence frames stepSeconds) := by
  simp only [buildMelodySequence]
  split
  · simp
  · split
    · simp
    · exact compressEvents_chain _

/-! ### C5 — Karaoke Segmenter -/

theorem karaokeRunsGo_flatten (gap : ℚ) :
    ∀ (l : List KaraokePoint) (lastP : KaraokePoint) (cur : List KaraokePoint),
      (karaokeRunsGo gap lastP cur l).flatten = cur ++ l := by
  intro l
  induction l with
  | nil => intro lastP cur; simp [karaokeRunsGo]
  | cons q rest ih =>
      intro lastP cur
      unfold karaokeRunsGo
      split
      · simp [ih]
      · rw [ih]
        simp

theorem karaokeRunsGo_ne_nil (gap : ℚ) :
    ∀ (l : List KaraokePoint) (lastP : KaraokePoint) (cur : List KaraokePoint),
      cur ≠ [] → ∀ r ∈ karaokeRunsGo gap lastP cur l, r ≠ [] := by
  intro l
  induction l with
  | nil =>
      intro lastP cur hc r hr
      simp [karaokeRunsGo] at hr
      subst hr
      exact hc
  | cons q rest ih =>
      intro lastP cur hc r hr
      unfold karaokeRunsGo at hr
      split at hr
      · rcases List.mem_cons.mp hr with h | h
        · subst h; exact hc
        · exact ih q [q] (by simp) r h
      · exact ih q (cur ++ [q]) (by simp) r hr

theorem karaokeRunsGo_chain_within (gap : ℚ) :
    ∀ (l : List KaraokePoint) (lastP : KaraokePoint) (cur : List KaraokePoint),
      cur.getLast? = some lastP →
      List.Chain' (fun p q => q.t - p.t ≤ gap) cur →
      ∀ r ∈ karaokeRunsGo gap lastP cur l,
        List.Chain' (fun p q => q.t - p.t ≤ gap) r := by
  intro l
  induction l with
  | nil =>
      intro lastP cur hlast hchain r hr
      simp [karaokeRunsGo] at hr
      subst hr
      exact hchain
  | cons q rest ih =>
      intro lastP cur hlast hchain r hr
      unfold karaokeRunsGo at hr
      split at hr
      · rcases List.mem_cons.mp hr with h | h
        · subst h; exact hchain
        · exact ih q [q] rfl (List.chain'_singleton q) r h
      · rename_i hgap
        refine ih q (cur ++ [q]) (List.getLast?_concat cur) ?_ r hr
        rw [List.chain'_append]
        refine ⟨hchain, List.chain'_singleton q, ?_⟩
        intro x hx y hy
        rw [hlast] at hx
        simp only [Option.mem_def, Option.some.injEq] at hx
        simp only [List.head?_cons, Option.mem_def, Option.some.injEq] at hy
        subst hx
        subst hy
        linarith [not_lt.mp hgap]

theorem karaokeRunsGo_head_head (gap : ℚ) :
    ∀ (l : List KaraokePoint) (lastP : KaraokePoint) (cur : List KaraokePoint),
      cur ≠ [] →
      ∀ r1 ∈ (karaokeRunsGo gap lastP cur l).head?, r1.head? = cur.head? := by
  intro l
  induction l with
  | nil =>
      intro lastP cur hc r1 hr1
      simp [karaokeRunsGo] at hr1
      subst hr1
      rfl
  | cons q rest ih =>
      intro lastP cur hc r1 hr1
      unfold karaokeRunsGo at hr1
      split at hr1
      · simp only [List.head?_cons, Option.mem_def, Option.some.injEq] at hr1
        subst hr1
        rfl
      · have := ih q (cur ++ [q]) (by simp) r1 hr1
        rw [this]
        cases cur with
        | nil => exact absurd rfl hc
        | cons a t => simp

theorem karaokeRunsGo_chain_between (gap : ℚ) :
    ∀ (l : List KaraokePoint) (lastP : KaraokePoint) (cur : List KaraokePoint),
      cur ≠ [] → cur.getLast? = some lastP →
      List.Chain' (fun r s => ∀ p ∈ r.getLast?, ∀ q ∈ s.head?, gap < q.t - p.t)
        (karaokeRunsGo gap lastP cur l) := by
  intro l
  induction l with
  | nil =>
      intro lastP cur hc hlast
      simp [karaokeRunsGo]
  | cons q rest ih =>
      intro lastP cur hc hlast
      unfold karaokeRunsGo
      split
      · rename_i hgap
        rw [List.chain'_cons']
        refine ⟨?_, ih q [q] (by simp) rfl⟩
        intro r1 hr1 p hp qq hqq
        rw [hlast] at hp
        simp only [Option.mem_def, Option.some.injEq] at hp
        subst hp
        have hh := karaokeRunsGo_head_head gap rest q [q] (by simp) r1 hr1
        rw [hh] at hqq
        simp only [List.head?_cons, Option.mem_def, Option.some.injEq] at hqq
        subst hqq
        exact hgap
      · exact ih q (cur ++ [q]) (by simp) (List.getLast?_concat cur)

instance : IsTotal KaraokePoint (fun a b => a.t ≤ b.t) :=
  ⟨fun a b => le_total a.t b.t⟩

instance : IsTrans KaraokePoint (fun a b => a.t ≤ b.t) :=
  ⟨fun _ _ _ hab hbc => le_trans hab hbc⟩

theorem buildKaraokePoints_sorted (minConfidence : ℚ) (frames : List RecordedFrame) :
    List.Sorted (fun a b : KaraokePoint => a.t ≤ b.t)
      (buildKaraokePoints minConfidence frames) := by
  unfold buildKaraokePoints
  split
  · simp
  · exact List.sorted_insertionSort _ _

theorem sorted_head?_le_getLast? (r : List KaraokePoint)
    (hs : List.Sorted (fun a b : KaraokePoint => a.t ≤ b.t) r) :
    ∀ p ∈ r.head?, ∀ q ∈ r.getLast?, p.t ≤ q.t := by
  intro p hp q hq
  cases r with
  | nil => simp at hp
  | cons a t =>
      simp only [List.head?_cons, Option.mem_def, Option.some.injEq] at hp
      rw [← hp]
      have hqmem : q ∈ a :: t := List.mem_of_mem_getLast? hq
      rcases List.mem_cons.mp hqmem with h | h
      · rw [h]
      · exact (List.sorted_cons.mp hs).1 q h

/-- C5 counterexample: two consecutive confident frames 0.1 s apart but a full
10 semitones apart stay in one polyline run — exceeding any semitone
tolerance (the spec's ±1 in particular) does NOT create a segment boundary,
because the source's path loop (main.ts line 1418) only tests the time gap. -/
theorem karaoke_midi_tolerance_counterexample :
    buildKaraokePoints DEFAULT_MIN_CONFIDENCE
        [⟨0, some 440, some 60, 9/10, none, none⟩,
         ⟨1/10, some 880, some 70, 9/10, none, none⟩]
      = [⟨0, 60⟩, ⟨1/10, 70⟩] ∧
    karaokeRuns LANE_GAP_BREAK_SECONDS [⟨0, 60⟩, ⟨1/10, 70⟩]
      = [[⟨0, 60⟩, ⟨1/10, 70⟩]] ∧
    (⟨1/10, 70⟩ : KaraokePoint).t - (⟨0, 60⟩ : KaraokePoint).t
      ≤ LANE_GAP_BREAK_SECONDS ∧
    (1 : ℤ) < |(⟨1/10, 70⟩ : KaraokePoint).midi - (⟨0, 60⟩ : KaraokePoint).midi| := by
  refine ⟨?_, ?_, ?_, ?_⟩
  · norm_num [buildKaraokePoints, DEFAULT_MIN_CONFIDENCE, List.insertionSort,
      List.orderedInsert, List.filter, List.cons_ne_nil]
  · norm_num [karaokeRuns, karaokeRunsGo, LANE_GAP_BREAK_SECONDS]
  · norm_num [LANE_GAP_BREAK_SECONDS]
  · norm_num

/-- C5 amended: the segments drawn by `renderKaraokeBar` are exactly the
maximal runs of `buildKaraokePoints` in which consecutive points are at most
`LANE_GAP_BREAK_SECONDS` apart in time: the runs partition the point list in
order; inside a run no consecutive pair exceeds the gap tolerance (regardless
of any midi difference); between consecutive runs the time gap always exceeds
it; consequently (for a nonnegative gap) the runs are temporally ordered,
non-overlapping, and each has end ≥ start.  There is no midi-tolerance test
and no minimum-length/hold post-processing in the code. -/
theorem karaoke_runs_boundary_characterization (minConfidence gap : ℚ)
    (frames : List RecordedFrame) (hgap : 0 ≤ gap) :
    (karaokeRuns gap (buildKaraokePoints minConfidence frames)).flatten
        = buildKaraokePoints minConfidence frames ∧
    (∀ r ∈ karaokeRuns gap (buildKaraokePoints minConfidence frames), r ≠ []) ∧
    (∀ r ∈ karaokeRuns gap (buildKaraokePoints minConfidence frames),
        List.Chain' (fun p q => q.t - p.t ≤ gap) r) ∧
    List.Chain' (fun r s => ∀ p ∈ r.getLast?, ∀ q ∈ s.head?, gap < q.t - p.t)
      (karaokeRuns gap (buildKaraokePoints minConfidence frames)) ∧
    List.Chain' (fun r s => ∀ p ∈ r.getLast?, ∀ q ∈ s.head?, p.t < q.t)
      (karaokeRuns gap (buildKaraokePoints minConfidence frames)) ∧
    (∀ r ∈ karaokeRuns gap (buildKaraokePoints minConfidence frames),
        ∀ p ∈ r.head?, ∀ q ∈ r.getLast?, p.t ≤ q.t) := by
  have hsorted := buildKaraokePoints_sorted minConfidence frames
  cases hpts : buildKaraokePoints minConfidence frames with
  | nil =>
      refine ⟨rfl, by simp [karaokeRuns], by simp [karaokeRuns], ?_, ?_, ?_⟩
      · simp [karaokeRuns]
      · simp [karaokeRuns]
      · simp [karaokeRuns]
  | cons p rest =>
      rw [hpts] at hsorted
      have hflat : (karaokeRuns gap (p :: rest)).flatten = p :: rest := by
        show (karaokeRunsGo gap p [p] rest).flatten = p :: rest
        rw [karaokeRunsGo_flatten]
        rfl
      have hbetween := karaokeRunsGo_chain_between gap rest p [p] (by simp) rfl
      refine ⟨hflat, ?_, ?_, hbetween, ?_, ?_⟩
      · exact karaokeRunsGo_ne_nil gap rest p [p] (by simp)
      · exact karaokeRunsGo_chain_within gap rest p [p] rfl
          (List.chain'_singleton p)
      · refine List.Chain'.imp ?_ hbetween
        intro r s h pp hpp qq hqq
        have := h pp hpp qq hqq
        linarith
      · intro r hr
        have hsub : List.Sublist r (karaokeRuns gap (p :: rest)).flatten :=
          List.sublist_flatten_of_mem hr
        rw [hflat] at hsub
        exact sorted_head?_le_getLast? r (hsorted.sublist hsub)

/-- Witness for C5's amended theorem: the two-frame recording of the
counterexample, at the source's gap tolerance. -/
theorem karaoke_runs_boundary_characterization_witness :
    (karaokeRuns LANE_GAP_BREAK_SECONDS (buildKaraokePoints DEFAULT_MIN_CONFIDENCE
        [⟨0, some 440, some 60, 9/10, none, none⟩,
         ⟨1/10, some 880, some 70, 9/10, none, none⟩])).flatten
        = buildKaraokePoints DEFAULT_MIN_CONFIDENCE
            [⟨0, some 440, some 60, 9/10, none, none⟩,
             ⟨1/10, some 880, some 70, 9/10, none, none⟩] ∧
    (∀ r ∈ karaokeRuns LANE_GAP_BREAK_SECONDS (buildKaraokePoints DEFAULT_MIN_CONFIDENCE
        [⟨0, some 440, some 60, 9/10, none, none⟩,
         ⟨1/10, some 880, some 70, 9/10, none, none⟩]), r ≠ []) ∧
    (∀ r ∈ karaokeRuns LANE_GAP_BREAK_SECONDS (buildKaraokePoints DEFAULT_MIN_CONFIDENCE
        [⟨0, some 440, some 60, 9/10, none, none⟩,
         ⟨1/10, some 880, some 70, 9/10, none, none⟩]),
        List.Chain' (fun p q => q.t - p.t ≤ LANE_GAP_BREAK_SECONDS) r) ∧
    List.Chain' (fun r s => ∀ p ∈ r.getLast?, ∀ q ∈ s.head?,
        LANE_GAP_BREAK_SECONDS < q.t - p.t)
      (karaokeRuns LANE_GAP_BREAK_SECONDS (buildKaraokePoints DEFAULT_MIN_CONFIDENCE
        [⟨0, some 440, some 60, 9/10, none, none⟩,
         ⟨1/10, some 880, some 70, 9/10, none, none⟩])) ∧
    List.Chain' (fun r s => ∀ p ∈ r.getLast?, ∀ q ∈ s.head?, p.t < q.t)
      (karaokeRuns LANE_GAP_BREAK_SECONDS (buildKaraokePoints DEFAULT_MIN_CONFIDENCE
        [⟨0, some 440, some 60, 9/10, none, none⟩,
         ⟨1/10, some 880, some 70, 9/10, none, none⟩])) ∧
    (∀ r ∈ karaokeRuns LANE_GAP_BREAK_SECONDS (buildKaraokePoints DEFAULT_MIN_CONFIDENCE
        [⟨0, some 440, some 60, 9/10, none, none⟩,
         ⟨1/10, some 880, some 70, 9/10, none, none⟩]),
        ∀ p ∈ r.head?, ∀ q ∈ r.getLast?, p.t ≤ q.t) :=
  karaoke_runs_boundary_characterization DEFAULT_MIN_CONFIDENCE
    LANE_GAP_BREAK_SECONDS
    [⟨0, some 440, some 60, 9/10, none, none⟩,
     ⟨1/10, some 880, some 70, 9/10, none, none⟩]
    (by norm_num [LANE_GAP_BREAK_SECONDS])

/-! ### C8 — best-lag scan of `autoCorrelate` -/

/-- The best-lag fold keeps the first strict maximum: either nothing ever beat
the initial accumulator, or the result is `(b, f b)` for the first `b` beating
everything before it, with everything after at most `f b`. -/
theorem foldl_bestStep_spec (f : ℤ → ℚ) :
    ∀ (L : List ℤ) (acc : ℤ × ℚ),
      (List.foldl (bestStep f) acc L = acc ∧ ∀ l ∈ L, f l ≤ acc.2) ∨
      (∃ L₁ b L₂, L = L₁ ++ b :: L₂ ∧
        List.foldl (bestStep f) acc L = (b, f b) ∧ acc.2 < f b ∧
        (∀ l ∈ L₁, f l < f b) ∧ (∀ l ∈ L₂, f l ≤ f b)) := by
  intro L
  induction L with
  | nil => intro acc; left; exact ⟨rfl, by simp⟩
  | cons l rest ih =>
      intro acc
      by_cases hc : acc.2 < f l
      · have hstep : bestStep f acc l = (l, f l) := by
          unfold bestStep; rw [if_pos hc]
        rcases ih (l, f l) with ⟨heq, hall⟩ | ⟨L₁, b, L₂, hsplit, heq, hlt, h1, h2⟩
        · right
          refine ⟨[], l, rest, by simp, ?_, hc, by simp, by simpa using hall⟩
          rw [List.foldl_cons, hstep, heq]
        · right
          refine ⟨l :: L₁, b, L₂, by simp [hsplit], ?_, lt_trans hc hlt, ?_, h2⟩
          · rw [List.foldl_cons, hstep, heq]
          · intro x hx
            rcases List.mem_cons.mp hx with h | h
            · rw [h]; exact hlt
            · exact h1 x h
      · have hstep : bestStep f acc l = acc := by
          unfold bestStep; rw [if_neg hc]
        rcases ih acc with ⟨heq, hall⟩ | ⟨L₁, b, L₂, hsplit, heq, hlt, h1, h2⟩
        · left
          refine ⟨by rw [List.foldl_cons, hstep, heq], ?_⟩
          intro x hx
          rcases List.mem_cons.mp hx with h | h
          · rw [h]; exact not_lt.mp hc
          · exact hall x h
        · right
          refine ⟨l :: L₁, b, L₂, by simp [hsplit], ?_, hlt, ?_, h2⟩
          · rw [List.foldl_cons, hstep, heq]
          · intro x hx
            rcases List.mem_cons.mp hx with h | h
            · rw [h]; exact lt_of_le_of_lt (not_lt.mp hc) hlt
            · exact h1 x h

theorem lagRange_pos (sampleRate : ℚ) (size : ℕ) :
    ∀ l ∈ lagRange sampleRate size, 1 ≤ l := by
  intro l hl
  unfold lagRange at hl
  simp only [List.mem_map, List.mem_range] at hl
  obtain ⟨i, _, rfl⟩ := hl
  have h1 : (1:ℤ) ≤ minLagOf sampleRate := le_max_left _ _
  omega

theorem lagRange_sorted (sampleRate : ℚ) (size : ℕ) :
    List.Pairwise (· < ·) (lagRange sampleRate size) := by
  unfold lagRange
  refine List.Pairwise.map _ ?_ (List.pairwise_lt_range _)
  intro a b hab
  omega

/-- C8: when the variance clears the epsilon, `autoCorrelate` reports
`sampleRate / bestLag` where `bestLag` is the first (lowest) lag of the
scanned range attaining the maximum positive correlation (the `>` test keeps
the earliest maximum), together with `clamp(bestCorrelation/variance, 0, 1)`;
and when no scanned lag has positive correlation it reports `frequency = none`
with the still-computed confidence, which is then `0`. -/
theorem autoCorrelate_best_lag_spec (buffer : List ℚ) (sampleRate : ℚ)
    (hvar : ¬ frameVariance buffer < 1/10000000) :
    ((∃ lag ∈ lagRange sampleRate buffer.length,
        0 < correlationAt buffer (frameMean buffer) lag) →
      ∃ bestLag ∈ lagRange sampleRate buffer.length,
        0 < correlationAt buffer (frameMean buffer) bestLag ∧
        (∀ l ∈ lagRange sampleRate buffer.length,
            correlationAt buffer (frameMean buffer) l
              ≤ correlationAt buffer (frameMean buffer) bestLag) ∧
        (∀ l ∈ lagRange sampleRate buffer.length, l < bestLag →
            correlationAt buffer (frameMean buffer) l
              < correlationAt buffer (frameMean buffer) bestLag) ∧
        autoCorrelate buffer sampleRate =
          ⟨some (sampleRate / bestLag),
           min (max (correlationAt buffer (frameMean buffer) bestLag
              / frameVariance buffer) 0) 1⟩) ∧
    ((∀ lag ∈ lagRange sampleRate buffer.length,
        correlationAt buffer (frameMean buffer) lag ≤ 0) →
      autoCorrelate buffer sampleRate = ⟨none, 0⟩) := by
  constructor
  · intro hex
    obtain ⟨lag0, hlag0, hpos0⟩ := hex
    rcases foldl_bestStep_spec (correlationAt buffer (frameMean buffer))
        (lagRange sampleRate buffer.length) (-1, 0) with
      ⟨heq, hall⟩ | ⟨L₁, b, L₂, hsplit, heq, hlt, h1, h2⟩
    · exact absurd (hall lag0 hlag0) (not_le.mpr hpos0)
    · have hmem : b ∈ lagRange sampleRate buffer.length := by
        rw [hsplit]; exact List.mem_append_right _ (List.mem_cons_self b L₂)
      have hmax : ∀ l ∈ lagRange sampleRate buffer.length,
          correlationAt buffer (frameMean buffer) l
            ≤ correlationAt buffer (frameMean buffer) b := by
        intro l hl
        rw [hsplit] at hl
        rcases List.mem_append.mp hl with h | h
        · exact le_of_lt (h1 l h)
        · rcases List.mem_cons.mp h with h' | h'
          · rw [h']
          · exact h2 l h'
      have hfirst : ∀ l ∈ lagRange sampleRate buffer.length, l < b →
          correlationAt buffer (frameMean buffer) l
            < correlationAt buffer (frameMean buffer) b := by
        intro l hl hlb
        have hpair := lagRange_sorted sampleRate buffer.length
        rw [hsplit] at hl hpair
        rcases List.mem_append.mp hl with h | h
        · exact h1 l h
        · rcases List.mem_cons.mp h with h' | h'
          · exact absurd hlb (by rw [h']; exact lt_irrefl b)
          · exfalso
            have := (List.pairwise_append.mp hpair).2.1
            have hbl := (List.pairwise_cons.mp this).1 l h'
            omega
      have hb1 : (1:ℤ) ≤ b := lagRange_pos sampleRate buffer.length b hmem
      refine ⟨b, hmem, by simpa using hlt, hmax, hfirst, ?_⟩
      unfold autoCorrelate
      rw [if_neg hvar]
      simp only [heq]
      rw [if_neg (by omega : ¬ b ≤ 0)]
  · intro hall
    rcases foldl_bestStep_spec (correlationAt buffer (frameMean buffer))
        (lagRange sampleRate buffer.length) (-1, 0) with
      ⟨heq, _⟩ | ⟨L₁, b, L₂, hsplit, heq, hlt, h1, h2⟩
    · unfold autoCorrelate
      rw [if_neg hvar]
      simp only [heq]
      norm_num
    · exfalso
      have hmem : b ∈ lagRange sampleRate buffer.length := by
        rw [hsplit]; exact List.mem_append_right _ (List.mem_cons_self b L₂)
      have := hall b hmem
      simp only at hlt
      linarith

/-- Witness for C8: the frame `[2, 2, 0, 0]` at sample rate 100 scans exactly
lag 1, whose correlation 1 is positive, so the frequency is `100 / 1`; the
frame `[1, -1, 1, -1]` at sample rate 4 scans no lag at all, so frequency is
`none` with confidence 0. -/
theorem autoCorrelate_best_lag_spec_witness :
    (∃ bestLag ∈ lagRange 100 ([2, 2, 0, 0] : List ℚ).length,
        0 < correlationAt [2, 2, 0, 0] (frameMean [2, 2, 0, 0]) bestLag ∧
        (∀ l ∈ lagRange 100 ([2, 2, 0, 0] : List ℚ).length,
            correlationAt [2, 2, 0, 0] (frameMean [2, 2, 0, 0]) l
              ≤ correlationAt [2, 2, 0, 0] (frameMean [2, 2, 0, 0]) bestLag) ∧
        (∀ l ∈ lagRange 100 ([2, 2, 0, 0] : List ℚ).length, l < bestLag →
            correlationAt [2, 2, 0, 0] (frameMean [2, 2, 0, 0]) l
              < correlationAt [2, 2, 0, 0] (frameMean [2, 2, 0, 0]) bestLag) ∧
        autoCorrelate [2, 2, 0, 0] 100 =
          ⟨some (100 / bestLag),
           min (max (correlationAt [2, 2, 0, 0] (frameMean [2, 2, 0, 0]) bestLag
              / frameVariance [2, 2, 0, 0]) 0) 1⟩) ∧
    autoCorrelate [1, -1, 1, -1] 4 = ⟨none, 0⟩ := by
  constructor
  · refine (autoCorrelate_best_lag_spec [2, 2, 0, 0] 100
      (by norm_num [frameVariance, frameMean])).1 ⟨1, ?_, ?_⟩
    · norm_num [lagRange, minLagOf, maxLagOf, MIN_FREQUENCY, MAX_FREQUENCY]
    · norm_num [correlationAt, frameMean, List.range_succ]
  · refine (autoCorrelate_best_lag_spec [1, -1, 1, -1] 4
      (by norm_num [frameVariance, frameMean])).2 ?_
    intro lag hl
    norm_num [lagRange, minLagOf, maxLagOf, MIN_FREQUENCY, MAX_FREQUENCY] at hl

/-! ### C9 — Vibrato Analyzer -/

theorem standardDeviationSq_getD_nonneg (l : List ℚ) :
    0 ≤ (standardDeviationSq l).getD 0 := by
  unfold standardDeviationSq
  cases haveg : average l with
  | none => simp
  | some mean =>
      simp only [Option.getD_some]
      apply div_nonneg
      · apply List.sum_nonneg
        intro x hx
        simp only [List.mem_map] at hx
        obtain ⟨v, _, rfl⟩ := hx
        positivity
      · positivity

/-- C9: `analyzeVibrato` returns `none` ("insufficient data") when fewer than
10 frames carry a non-null `cents`, and when the recording duration
(last minus first timestamp) is not positive — never a result with an
unguarded division.  Otherwise, for the returned record, the rate is
`crossings / (2 * duration)` with the dead-zone-filtered crossing count, and
vibrato is flagged exactly when rate ∈ [3, 8] Hz, the standard deviation of
the cents series (√ of the stored square) is at least 6 cents, and there are
at least 4 crossings. -/
theorem analyzeVibrato_spec (frames : List RecordedFrame) :
    ((frames.filterMap (fun f => f.cents)).length < 10 →
        analyzeVibrato frames = none) ∧
    ((frames.getLastD default).t - (frames.headD default).t ≤ 0 →
        analyzeVibrato frames = none) ∧
    (∀ r, analyzeVibrato frames = some r →
        10 ≤ (frames.filterMap (fun f => f.cents)).length ∧
        0 < (frames.getLastD default).t - (frames.headD default).t ∧
        r.rate = (countCrossings (frames.filterMap (fun f => f.cents))
            ((average (frames.filterMap (fun f => f.cents))).getD 0) : ℚ)
          / (2 * ((frames.getLastD default).t - (frames.headD default).t)) ∧
        (r.hasVibrato = true ↔
          (3 ≤ r.rate ∧ r.rate ≤ 8 ∧
           (6:ℝ) ≤ Real.sqrt (r.depthSq : ℝ) ∧
           4 ≤ countCrossings (frames.filterMap (fun f => f.cents))
             ((average (frames.filterMap (fun f => f.cents))).getD 0)))) := by
  refine ⟨?_, ?_, ?_⟩
  · intro hlen
    by_cases h10 : frames.length < 10
    · simp only [analyzeVibrato, if_pos h10]
    · simp only [analyzeVibrato, if_neg h10, if_pos hlen]
  · intro hdur
    by_cases h10 : frames.length < 10
    · simp only [analyzeVibrato, if_pos h10]
    · by_cases hcents : (frames.filterMap (fun f => f.cents)).length < 10
      · simp only [analyzeVibrato, if_neg h10, if_pos hcents]
      · simp only [analyzeVibrato, if_neg h10, if_neg hcents,
          if_pos (not_lt.mpr hdur)]
        rw [if_pos hdur]
  · intro r hr
    by_cases h10 : frames.length < 10
    · simp only [analyzeVibrato, if_pos h10] at hr
      exact absurd hr (by simp)
    · by_cases hcents : (frames.filterMap (fun f => f.cents)).length < 10
      · simp only [analyzeVibrato, if_neg h10, if_pos hcents] at hr
        exact absurd hr (by simp)
      · by_cases hdur : (frames.getLastD default).t - (frames.headD default).t ≤ 0
        · simp only [analyzeVibrato, if_neg h10, if_neg hcents] at hr
          rw [if_pos hdur] at hr
          exact absurd hr (by simp)
        · simp only [analyzeVibrato, if_neg h10, if_neg hcents] at hr
          rw [if_neg hdur] at hr
          simp only [Option.some.injEq] at hr
          have hnn : 0 ≤ (standardDeviationSq
              (frames.filterMap (fun f => f.cents))).getD 0 :=
            standardDeviationSq_getD_nonneg _
          refine ⟨not_lt.mp hcents, not_le.mp hdur, ?_, ?_⟩
          · rw [← hr]
          · rw [← hr]
            simp only [decide_eq_true_eq]
            constructor
            · rintro ⟨h1, h2, h3, h4⟩
              exact ⟨h1, h2, (stdDev_ge_iff _ hnn).mpr h3, h4⟩
            · rintro ⟨h1, h2, h3, h4⟩
              exact ⟨h1, h2, (stdDev_ge_iff _ hnn).mp h3, h4⟩

/-- Ten frames one second apart with cents alternating ±10, used to
instantiate the vibrato analysis. -/
def vibratoTestFrames : List RecordedFrame :=
  [⟨0, none, none, 9/10, some 10, none⟩, ⟨1, none, none, 9/10, some (-10), none⟩,
   ⟨2, none, none, 9/10, some 10, none⟩, ⟨3, none, none, 9/10, some (-10), none⟩,
   ⟨4, none, none, 9/10, some 10, none⟩, ⟨5, none, none, 9/10, some (-10), none⟩,
   ⟨6, none, none, 9/10, some 10, none⟩, ⟨7, none, none, 9/10, some (-10), none⟩,
   ⟨8, none, none, 9/10, some 10, none⟩, ⟨9, none, none, 9/10, some (-10), none⟩]

/-- Witness for C9: a single frame has too few cents points (and zero
duration), so the analysis reports `none`; the ten-frame alternating-cents
recording evaluates to rate `1/2`, squared depth `100`, and no vibrato flag
(its rate is below 3 Hz), matching the characterization. -/
theorem analyzeVibrato_spec_witness :
    analyzeVibrato [⟨0, none, none, 9/10, some 10, none⟩] = none ∧
    (analyzeVibrato vibratoTestFrames = some ⟨1/2, 100, false⟩ ∧
      (false = true ↔
        (3 ≤ (1/2 : ℚ) ∧ (1/2 : ℚ) ≤ 8 ∧
         (6:ℝ) ≤ Real.sqrt ((100 : ℚ) : ℝ) ∧
         4 ≤ countCrossings (vibratoTestFrames.filterMap (fun f => f.cents))
           ((average (vibratoTestFrames.filterMap (fun f => f.cents))).getD 0)))) := by
  have heval : analyzeVibrato vibratoTestFrames = some ⟨1/2, 100, false⟩ := by
    norm_num [analyzeVibrato, vibratoTestFrames, average, countCrossings,
      standardDeviationSq, List.filterMap, List.getLastD, List.cons_ne_nil]
  refine ⟨(analyzeVibrato_spec [⟨0, none, none, 9/10, some 10, none⟩]).1
      (by norm_num [List.filterMap]), heval, ?_⟩
  have h := (analyzeVibrato_spec vibratoTestFrames).2.2 ⟨1/2, 100, false⟩ heval
  exact h.2.2.2

end PerfectPitch
